import Mathlib

/-!
Verification of the Pristar P15 label-printer driver.

This file embeds, as executable Lean definitions, the parts of the
repository that the claims talk about:

* the bitmap-to-packet codec
  (`PristarP15Labeler._bitmap_to_packet` in `pristar_p15.py`,
  identical to `bitmap_to_packet` in `newprint5_withfeed.py`);
* the connect retry loop (`BluetoothDevice.connect` in `bluetooth_device.py`);
* the send/reconnect loop (`BluetoothDevice.send_data`) as driven by
  `PristarP15Labeler.print`;
* the device manager (`DeviceManager.scan`, `matching_devices`,
  `find_and_select_device` in `device_manager.py`) together with
  `LabelerDevice.is_match` from `labeler_device.py`;
* the `tape_size_mm` setter of `PristarP15Labeler`.

Rasters are embedded as a width, a height and a pixel predicate
`f : Nat → Nat → Bool` where `f x y = true` means the pixel at column
`x`, row `y` is dark (`getpixel((x, y)) == 0` in the Python source).
-/

/-! ### Bitmap codec -/

/-- One byte of the packet, for column `x` and byte-group origin `g`.

Source (`pristar_p15.py`, inner loop of `_bitmap_to_packet`):
```
byte = 0
for bit in range(8):
    px_y = y_byte_group + bit
    if 0 <= px_y < height and bitmap.getpixel((x, px_y)) == 0:
        byte |= (1 << bit)
```
`0 <= px_y` is automatic for naturals; `f x (g + bit) = true` embeds
`getpixel((x, px_y)) == 0`. -/
def groupByte (f : Nat → Nat → Bool) (H x g : Nat) : Nat :=
  (List.range 8).foldl
    (fun byte bit =>
      if g + bit < H ∧ f x (g + bit) = true then byte ||| (1 <<< bit) else byte)
    0

/-- The byte-group origins visited by `for y_byte_group in range(height - 8, -1, -8)`:
`H - 8, H - 16, …` down to the last value that is still `≥ 0`.
That Python range has exactly `H / 8` elements, the `k`-th being
`H - 8 * (k + 1)` (and it is empty when `H < 8`). -/
def groupOrigins (H : Nat) : List Nat :=
  (List.range (H / 8)).map (fun k => H - 8 * (k + 1))

/-- The run of bytes emitted for one column `x` of the raster. -/
def column_bytes (f : Nat → Nat → Bool) (H x : Nat) : List Nat :=
  (groupOrigins H).map (fun g => groupByte f H x g)

/-- `PristarP15Labeler._bitmap_to_packet` / `bitmap_to_packet`: the outer loop
`for x in range(width)` appends the byte runs of all columns in order. -/
def bitmap_to_packet (W H : Nat) (f : Nat → Nat → Bool) : List Nat :=
  (List.range W).flatMap (fun x => column_bytes f H x)

/-- An all-dark raster (every pixel dark). -/
def allDark : Nat → Nat → Bool := fun _ _ => true

/-- A raster whose only dark pixel is at row `r`, column `c`. -/
def singlePixel (r c : Nat) : Nat → Nat → Bool :=
  fun x y => decide (x = c) && decide (y = r)

/-- The raster with a single dark pixel at row 0, column 0. -/
def pixAt00 : Nat → Nat → Bool := singlePixel 0 0

/-- A pixel function that is dark exactly on the 1×8 in-range rectangle;
it agrees with `allDark` on every in-range pixel of a 1×8 raster. -/
def inRangeDark : Nat → Nat → Bool :=
  fun x y => decide (x < 1) && decide (y < 8)

/-- A list of `n` bytes that is `v` at position `i` and `0` elsewhere. -/
def zerosExcept (n i v : Nat) : List Nat :=
  (List.range n).map (fun j => if j = i then v else 0)

/-! ### Device manager: data model

A device is identified by its `hash` (for `BluetoothDevice`, the property
`hash` returns `self._address`) and carries a display `name`
(for the Pristar P15, `self._name or self._address`, always
"Pristar P15" since the manager constructs it with that name).
Strings are embedded as `List Char`. -/

structure Dev where
  hash : List Char
  name : List Char
deriving DecidableEq

/-- The key set of a Python `dict[str, LabelerDevice]`, modelled as the list
of hashes of its entries (entries are kept in insertion order). -/
def keysOf (d : List Dev) : List (List Char) := d.map Dev.hash

/-- Python dict assignment `cur[dev.hash] = dev`: overwrite in place when the
key is present, append otherwise. -/
def dictInsert (d : List Dev) (v : Dev) : List Dev :=
  if v.hash ∈ keysOf d then d.map (fun e => if e.hash = v.hash then v else e)
  else d ++ [v]

/-- The hardcoded Pristar P15 entry that `DeviceManager.scan` always inserts:
`PristarP15Labeler(address="03:0D:7A:D6:5E:B1", name="Pristar P15")`. -/
def pristarDev : Dev := ⟨"03:0D:7A:D6:5E:B1".data, "Pristar P15".data⟩

/-- A sample previously-known device, used in concrete scenarios. -/
def devA : Dev := ⟨"AA:BB".data, "Alpha".data⟩

/-- A second sample previously-known device. -/
def devB : Dev := ⟨"CC:DD".data, "Beta".data⟩

/-- The fresh set `cur` built by `DeviceManager.scan`: every enumerated USB
device with a truthy (non-empty) hash is inserted, then the hardcoded
Pristar P15 entry is inserted unconditionally.  The argument `usb` is the
list of devices the USB enumeration yielded before any (caught) enumeration
error; a total enumeration failure corresponds to `usb = []`.
(`UsbDevice.supported_devices` itself is external to the repository.) -/
def buildCur (usb : List Dev) : List Dev :=
  dictInsert
    (usb.foldl (fun cur dev => if dev.hash = [] then cur else dictInsert cur dev) [])
    pristarDev

/-- Python `set(prev) == set(cur)` on the key sets. -/
def keySetEq (a b : List (List Char)) : Bool :=
  a.all (fun x => decide (x ∈ b)) && b.all (fun x => decide (x ∈ a))

/-- The device dict after the diff-and-update phase of `scan`:
keys in `prev` but not in `cur` are popped, keys in `cur` but not in `prev`
are added (with `cur`'s values); keys in both keep their old entries. -/
def scanDevs (prev usb : List Dev) : List Dev :=
  prev.filter (fun e => decide (e.hash ∈ keysOf (buildCur usb))) ++
    (buildCur usb).filter (fun e => decide (e.hash ∉ keysOf prev))

/-- `DeviceManager.scan`: build the fresh set; if it is empty, clear and raise
`DeviceManagerNoDevices`; otherwise apply the diff and return whether the
key set changed (`prev_set != cur_set`). -/
def scan (prev usb : List Dev) : Except String (List Dev × Bool) :=
  if (buildCur usb).length = 0 then Except.error "No supported devices found"
  else
    Except.ok (scanDevs prev usb,
      !(keySetEq (keysOf prev) (keysOf (buildCur usb))))

/-! ### Device selection -/

/-- Python `str.lower()` on the characters of a name. -/
def lowerL (s : List Char) : List Char := s.map Char.toLower

/-- Helper for the substring test: does `n` occur at the very start of the
second list? -/
def leadsWith : List Char → List Char → Bool
  | [], _ => true
  | _ :: _, [] => false
  | a :: as, b :: bs => a == b && leadsWith as bs

/-- Python `n in h` on strings: `n` occurs contiguously somewhere in `h`. -/
def hasSub (n : List Char) : List Char → Bool
  | [] => leadsWith n []
  | b :: bs => leadsWith n (b :: bs) || hasSub n bs

/-- `LabelerDevice.is_match` (`labeler_device.py`):
`None` patterns match everything; otherwise `match &= pattern.lower() in
self.name.lower()` over all patterns, starting from `match = True`. -/
def is_match (d : Dev) (patterns : Option (List (List Char))) : Bool :=
  match patterns with
  | none => true
  | some ps => ps.foldl (fun m p => m && hasSub (lowerL p) (lowerL d.name)) true

/-- Python string comparison: lexicographic by code point. -/
def lexLe : List Char → List Char → Bool
  | [], _ => true
  | _ :: _, [] => false
  | a :: as, b :: bs =>
    if a.toNat < b.toNat then true
    else if b.toNat < a.toNat then false
    else lexLe as bs

/-- Stable insertion into an ascending list (the new element goes before
any element already present that compares equal or larger). -/
def ins {α : Type} (le : α → α → Bool) (a : α) : List α → List α
  | [] => [a]
  | b :: l => if le a b then a :: b :: l else b :: ins le a l

/-- A stable sort; Python's `sorted` is specified as exactly a stable sort,
and stable sorts by a fixed total preorder are extensionally unique, so this
models `sorted(..., key=...)` faithfully. -/
def sortBy {α : Type} (le : α → α → Bool) : List α → List α
  | [] => []
  | a :: l => ins le a (sortBy le l)

/-- `sorted(..., key=lambda dev: dev.hash)`'s comparison. -/
def devLe (a b : Dev) : Bool := lexLe a.hash b.hash

/-- `DeviceManager.matching_devices`: filter by `is_match`, sort by hash. -/
def matching_devices (devs : List Dev) (ps : Option (List (List Char))) : List Dev :=
  sortBy devLe (devs.filter (fun d => is_match d ps))

/-- `DeviceManager.find_and_select_device`: raise `DeviceManagerError` on an
empty match list, otherwise return the first match. -/
def find_and_select_device (devs : List Dev) (ps : Option (List (List Char))) :
    Except String Dev :=
  match matching_devices devs ps with
  | [] => Except.error "No matching devices found"
  | d :: _ => Except.ok d

/-- A known device named "Other", for the concrete selection scenario. -/
def otherDev : Dev := ⟨"AA:BB".data, "Other".data⟩

/-! ### Tape-size setter -/

/-- `PristarP15Labeler.SUPPORTED_TAPE_SIZES_MM = (12,)`. -/
def SUPPORTED_TAPE_SIZES_MM : List Int := [12]

/-- The configuration state touched by the `tape_size_mm` setter. -/
structure P15Config where
  tape_size_mm : Int
deriving DecidableEq

/-- The `tape_size_mm` setter of `PristarP15Labeler`: raise `ValueError` for
an unsupported size, otherwise store the value.  It is a pure state update
and performs no device I/O. -/
def set_tape_size_mm (s : P15Config) (value : Int) : Except String P15Config :=
  if value ∉ SUPPORTED_TAPE_SIZES_MM then Except.error "Unsupported tape size"
  else Except.ok { s with tape_size_mm := value }

/-- The configuration a caller observes after attempting the assignment:
unchanged when the setter raised. -/
def config_after_set (s : P15Config) (value : Int) : P15Config :=
  match set_tape_size_mm s value with
  | Except.ok s2 => s2
  | Except.error _ => s

/-! ### Connect retry loop

`BluetoothDevice.connect(retries, delay)` runs `for i in range(retries)`;
each iteration attempts `Peripheral(...)` (the open), whose outcome we model
by an oracle `outcome : Nat → OpenResult`.  A `BTLEDisconnectError` sleeps
and continues if not the last attempt, else re-raises; any other exception
is logged, sleeps, and continues — after the last iteration the function
falls through and returns `None`.  The model returns
(number of open attempts, number of sleeps, outcome); `fuel` counts the
remaining loop iterations, starting at `retries`. -/

inductive OpenResult
  | success
  | btleError
  | otherError
deriving DecidableEq

inductive ConnectOutcome
  | connected
  | raisedBTLE
  | fellThrough
deriving DecidableEq

def connectLoop (outcome : Nat → OpenResult) (retries : Nat) :
    Nat → Nat → Nat × Nat × ConnectOutcome
  | _, 0 => (0, 0, ConnectOutcome.fellThrough)
  | i, fuel + 1 =>
    match outcome i with
    | OpenResult.success => (1, 0, ConnectOutcome.connected)
    | OpenResult.btleError =>
      if i < retries - 1 then
        ((connectLoop outcome retries (i + 1) fuel).1 + 1,
          (connectLoop outcome retries (i + 1) fuel).2.1 + 1,
          (connectLoop outcome retries (i + 1) fuel).2.2)
      else (1, 0, ConnectOutcome.raisedBTLE)
    | OpenResult.otherError =>
      ((connectLoop outcome retries (i + 1) fuel).1 + 1,
        (connectLoop outcome retries (i + 1) fuel).2.1 + 1,
        (connectLoop outcome retries (i + 1) fuel).2.2)

/-- `BluetoothDevice.connect(retries, delay)` as observed by the caller:
(attempts made, sleeps of duration `delay`, outcome). -/
def connectRun (outcome : Nat → OpenResult) (retries : Nat) :
    Nat × Nat × ConnectOutcome :=
  connectLoop outcome retries 0 retries

/-- A transport whose open attempt always raises `BTLEDisconnectError`. -/
def allBtleOpen : Nat → OpenResult := fun _ => OpenResult.btleError

/-- A transport whose open attempt always raises a non-BTLE exception. -/
def allOtherOpen : Nat → OpenResult := fun _ => OpenResult.otherError

/-! ### Send / print loop

`BluetoothDevice.send_data(data, retries=5, delay=2)`: each iteration writes
all chunks (outcome oracle `write`); on `BTLEDisconnectError` it calls
`self.connect()` (oracle `reconnect`: `true` when that call returns, `false`
when it raises, which propagates) and sleeps if not the last attempt, else
re-raises; other exceptions sleep and continue.  We record the number of
inline reconnect attempts (calls to `self.connect()`).
`PristarP15Labeler.print` wraps the send in `try/except` and converts a
raised `BTLEDisconnectError` into `PristarP15LabelerError`. -/

inductive WriteResult
  | ok
  | btle
  | other
deriving DecidableEq

inductive SendOutcome
  | sent
  | raisedBTLE
  | fellThrough
deriving DecidableEq

def sendLoop (write : Nat → WriteResult) (reconnect : Nat → Bool) (retries : Nat) :
    Nat → Nat → Nat × SendOutcome
  | _, 0 => (0, SendOutcome.fellThrough)
  | i, fuel + 1 =>
    match write i with
    | WriteResult.ok => (0, SendOutcome.sent)
    | WriteResult.btle =>
      if i < retries - 1 then
        if reconnect i then
          ((sendLoop write reconnect retries (i + 1) fuel).1 + 1,
            (sendLoop write reconnect retries (i + 1) fuel).2)
        else (1, SendOutcome.raisedBTLE)
      else (0, SendOutcome.raisedBTLE)
    | WriteResult.other => sendLoop write reconnect retries (i + 1) fuel

/-- `BluetoothDevice.send_data` as observed by the caller:
(inline reconnect attempts, outcome). -/
def send_data (write : Nat → WriteResult) (reconnect : Nat → Bool) (retries : Nat) :
    Nat × SendOutcome :=
  sendLoop write reconnect retries 0 retries

inductive PrintOutcome
  | success
  | raisedError
deriving DecidableEq

/-- `PristarP15Labeler.print` around one failing `send_data` call: a raised
`BTLEDisconnectError` becomes a raised `PristarP15LabelerError`; a send that
returns (including the swallowed fall-through) lets `print` succeed. -/
def print_job (write : Nat → WriteResult) (reconnect : Nat → Bool) (retries : Nat) :
    Nat × PrintOutcome :=
  match send_data write reconnect retries with
  | (n, SendOutcome.sent) => (n, PrintOutcome.success)
  | (n, SendOutcome.raisedBTLE) => (n, PrintOutcome.raisedError)
  | (n, SendOutcome.fellThrough) => (n, PrintOutcome.success)

/-- A link on which every chunk write raises `BTLEDisconnectError`. -/
def alwaysBtleWrite : Nat → WriteResult := fun _ => WriteResult.btle

/-- An environment in which every inline `connect()` call succeeds. -/
def alwaysReconnectOk : Nat → Bool := fun _ => true

/-! ## Helper lemmas: codec -/

theorem foldl_bits_zero {C : Nat → Prop} [DecidablePred C] (n : Nat)
    (h : ∀ i, i < n → ¬ C i) :
    (List.range n).foldl
      (fun byte bit => if C bit then byte ||| (1 <<< bit) else byte) 0 = 0 := by
  induction n with
  | zero => rfl
  | succ n ih =>
    rw [List.range_succ, List.foldl_append, ih (fun i hi => h i (by omega))]
    simp only [List.foldl_cons, List.foldl_nil]
    rw [if_neg (h n (by omega))]

theorem foldl_bits_single {C : Nat → Prop} [DecidablePred C] (n d : Nat) (hd : d < n)
    (h : ∀ i, i < n → (C i ↔ i = d)) :
    (List.range n).foldl
      (fun byte bit => if C bit then byte ||| (1 <<< bit) else byte) 0 = 1 <<< d := by
  induction n with
  | zero => omega
  | succ n ih =>
    rw [List.range_succ, List.foldl_append]
    by_cases hdn : d = n
    · subst hdn
      rw [foldl_bits_zero d (fun i hi => by rw [h i (by omega)]; omega)]
      simp only [List.foldl_cons, List.foldl_nil]
      rw [if_pos ((h d (by omega)).mpr rfl), Nat.zero_or]
    · rw [ih (by omega) (fun i hi => h i (by omega))]
      simp only [List.foldl_cons, List.foldl_nil]
      rw [if_neg (fun hc => hdn (((h n (by omega)).mp hc)).symm)]

theorem groupByte_eq_zero (f : Nat → Nat → Bool) (H x g : Nat)
    (h : ∀ bit, bit < 8 → ¬(g + bit < H ∧ f x (g + bit) = true)) :
    groupByte f H x g = 0 :=
  foldl_bits_zero 8 h

theorem groupByte_eq_single (f : Nat → Nat → Bool) (H x g d : Nat) (hd : d < 8)
    (h : ∀ bit, bit < 8 → ((g + bit < H ∧ f x (g + bit) = true) ↔ bit = d)) :
    groupByte f H x g = 2 ^ d := by
  have hs := foldl_bits_single
    (C := fun bit => g + bit < H ∧ f x (g + bit) = true) 8 d hd h
  simpa [groupByte, Nat.shiftLeft_eq] using hs

theorem groupByte_single_pixel (H x g r c : Nat) :
    groupByte (singlePixel r c) H x g =
      if x = c ∧ g ≤ r ∧ r < g + 8 ∧ r < H then 2 ^ (r - g) else 0 := by
  by_cases hx : x = c
  · subst hx
    by_cases hin : g ≤ r ∧ r < g + 8 ∧ r < H
    · obtain ⟨h1, h2, h3⟩ := hin
      have hcond : x = x ∧ g ≤ r ∧ r < g + 8 ∧ r < H := ⟨rfl, h1, h2, h3⟩
      rw [if_pos hcond]
      refine groupByte_eq_single _ _ _ _ (r - g) (by omega) (fun bit hbit => ?_)
      simp only [singlePixel, Bool.and_eq_true, decide_eq_true_eq]
      constructor
      · rintro ⟨hlt, _, hy⟩; omega
      · rintro rfl; exact ⟨by omega, by trivial, by omega⟩
    · rw [if_neg (by tauto)]
      refine groupByte_eq_zero _ _ _ _ (fun bit hbit => ?_)
      rintro ⟨hlt, hpix⟩
      simp only [singlePixel, Bool.and_eq_true, decide_eq_true_eq] at hpix
      omega
  · rw [if_neg (by tauto)]
    refine groupByte_eq_zero _ _ _ _ (fun bit hbit => ?_)
    rintro ⟨hlt, hpix⟩
    simp only [singlePixel, Bool.and_eq_true, decide_eq_true_eq] at hpix
    exact hx hpix.1

theorem range_flatMap_eq_map {β : Type} (n m : Nat) (F : Nat → List β) (G : Nat → β)
    (h : ∀ x, x < n → F x = (List.range m).map (fun j => G (x * m + j))) :
    (List.range n).flatMap F = (List.range (n * m)).map G := by
  induction n with
  | zero => simp
  | succ n ih =>
    rw [List.range_succ, List.flatMap_append,
      ih (fun x hx => h x (by omega)), Nat.succ_mul, List.range_add,
      List.map_append, List.map_map]
    simp only [List.flatMap_cons, List.flatMap_nil, List.append_nil]
    rw [h n (by omega)]
    rfl

theorem mul_add_cancel_parts (m x c j k : Nat) (hj : j < m) (hk : k < m)
    (h : x * m + j = c * m + k) : x = c ∧ j = k := by
  have hm : 0 < m := by omega
  have hx : (x * m + j) / m = x := by
    rw [Nat.mul_comm x m, Nat.mul_add_div hm, Nat.div_eq_of_lt hj, Nat.add_zero]
  have hc : (c * m + k) / m = c := by
    rw [Nat.mul_comm c m, Nat.mul_add_div hm, Nat.div_eq_of_lt hk, Nat.add_zero]
  have hxm : (x * m + j) % m = j := by
    rw [Nat.mul_comm x m, Nat.mul_add_mod, Nat.mod_eq_of_lt hj]
  have hcm : (c * m + k) % m = k := by
    rw [Nat.mul_comm c m, Nat.mul_add_mod, Nat.mod_eq_of_lt hk]
  constructor
  · rw [← hx, ← hc, h]
  · rw [← hxm, ← hcm, h]

theorem flatMap_congr_left {α β : Type} {l : List α} {F G : α → List β}
    (h : ∀ a ∈ l, F a = G a) : l.flatMap F = l.flatMap G := by
  induction l with
  | nil => rfl
  | cons a l ih =>
    rw [List.flatMap_cons, List.flatMap_cons, h a (List.mem_cons_self a l),
      ih (fun b hb => h b (List.mem_cons_of_mem a hb))]

theorem groupByte_congr (f g : Nat → Nat → Bool) (H x o : Nat)
    (h : ∀ y, y < H → f x y = g x y) :
    groupByte f H x o = groupByte g H x o := by
  rw [groupByte, groupByte]
  congr 1
  funext byte bit
  by_cases hb : o + bit < H
  · rw [h (o + bit) hb]
  · rw [if_neg (fun hc => hb hc.1), if_neg (fun hc => hb hc.1)]

/-! ## Helper lemmas: device manager -/

theorem keySetEq_iff (a b : List (List Char)) :
    keySetEq a b = true ↔ a.toFinset = b.toFinset := by
  rw [keySetEq, Bool.and_eq_true, List.all_eq_true, List.all_eq_true]
  simp only [decide_eq_true_eq]
  constructor
  · rintro ⟨h1, h2⟩
    ext x
    simp only [List.mem_toFinset]
    exact ⟨fun hx => h1 x hx, fun hx => h2 x hx⟩
  · intro h
    constructor <;> intro x hx
    · rw [← List.mem_toFinset, h, List.mem_toFinset] at hx; exact hx
    · rw [← List.mem_toFinset, ← h, List.mem_toFinset] at hx; exact hx

theorem mem_keysOf (x : List Char) (l : List Dev) :
    x ∈ keysOf l ↔ ∃ e ∈ l, e.hash = x := by
  simp [keysOf, List.mem_map]

theorem mem_keysOf_dictInsert_self (d : List Dev) (v : Dev) :
    v.hash ∈ keysOf (dictInsert d v) := by
  rw [dictInsert]
  split
  · rename_i h
    rw [mem_keysOf] at h ⊢
    obtain ⟨e, he, heq⟩ := h
    refine ⟨v, ?_, rfl⟩
    rw [List.mem_map]
    exact ⟨e, he, by rw [if_pos heq]⟩
  · rw [mem_keysOf]
    exact ⟨v, by simp, rfl⟩

theorem buildCur_has_pristar (usb : List Dev) :
    pristarDev.hash ∈ keysOf (buildCur usb) :=
  mem_keysOf_dictInsert_self _ _

theorem buildCur_ne_nil (usb : List Dev) : buildCur usb ≠ [] := by
  intro h
  have hm := buildCur_has_pristar usb
  rw [h] at hm
  simp [keysOf] at hm

theorem keysOf_scanDevs (prev usb : List Dev) :
    (keysOf (scanDevs prev usb)).toFinset = (keysOf (buildCur usb)).toFinset := by
  ext x
  simp only [List.mem_toFinset, scanDevs, keysOf, List.map_append, List.mem_append,
    List.mem_map, List.mem_filter, decide_eq_true_eq]
  constructor
  · rintro (⟨e, ⟨he, hin⟩, rfl⟩ | ⟨e, ⟨he, _⟩, rfl⟩)
    · exact hin
    · exact ⟨e, he, rfl⟩
  · rintro ⟨e, he, rfl⟩
    by_cases hp : ∃ e2 ∈ prev, e2.hash = e.hash
    · obtain ⟨e2, he2, heq⟩ := hp
      left
      exact ⟨e2, ⟨he2, ⟨e, he, heq.symm⟩⟩, heq⟩
    · right
      exact ⟨e, ⟨he, hp⟩, rfl⟩

theorem scan_ok (prev usb : List Dev) :
    scan prev usb = Except.ok (scanDevs prev usb,
      !(keySetEq (keysOf prev) (keysOf (buildCur usb)))) := by
  rw [scan, if_neg]
  intro h
  exact buildCur_ne_nil usb (List.length_eq_zero.mp h)

/-! ## Helper lemmas: selection -/

theorem lexLe_total (a b : List Char) : lexLe a b = true ∨ lexLe b a = true := by
  induction a generalizing b with
  | nil => left; rfl
  | cons x as ih =>
    cases b with
    | nil => right; rfl
    | cons y bs =>
      rw [lexLe, lexLe]
      rcases Nat.lt_trichotomy x.toNat y.toNat with h | h | h
      · left; rw [if_pos h]
      · rw [if_neg (by omega), if_neg (by omega), if_neg (by omega), if_neg (by omega)]
        exact ih bs
      · right; rw [if_pos h]

theorem lexLe_trans (a b c : List Char) (h1 : lexLe a b = true)
    (h2 : lexLe b c = true) : lexLe a c = true := by
  induction a generalizing b c with
  | nil => rfl
  | cons x as ih =>
    cases b with
    | nil => rw [lexLe] at h1; exact absurd h1 (by simp)
    | cons y bs =>
      cases c with
      | nil => rw [lexLe] at h2; exact absurd h2 (by simp)
      | cons z cs =>
        rw [lexLe] at h1 h2 ⊢
        rcases Nat.lt_trichotomy x.toNat y.toNat with hxy | hxy | hxy
        · rcases Nat.lt_trichotomy y.toNat z.toNat with hyz | hyz | hyz
          · rw [if_pos (by omega)]
          · rw [if_pos (by omega)]
          · rw [if_neg (by omega), if_pos (by omega)] at h2
            simp at h2
        · rcases Nat.lt_trichotomy y.toNat z.toNat with hyz | hyz | hyz
          · rw [if_pos (by omega)]
          · rw [if_neg (by omega), if_neg (by omega)] at h1 h2 ⊢
            exact ih bs cs h1 h2
          · rw [if_neg (by omega), if_pos (by omega)] at h2
            simp at h2
        · rw [if_neg (by omega), if_pos (by omega)] at h1
          simp at h1

theorem lexLe_refl (a : List Char) : lexLe a a = true := by
  induction a with
  | nil => rfl
  | cons x as ih =>
    rw [lexLe, if_neg (by omega), if_neg (by omega)]
    exact ih

theorem devLe_total (a b : Dev) : devLe a b = true ∨ devLe b a = true :=
  lexLe_total a.hash b.hash

theorem devLe_trans (a b c : Dev) (h1 : devLe a b = true) (h2 : devLe b c = true) :
    devLe a c = true :=
  lexLe_trans a.hash b.hash c.hash h1 h2

theorem ins_perm {α : Type} (le : α → α → Bool) (a : α) (l : List α) :
    List.Perm (ins le a l) (a :: l) := by
  induction l with
  | nil => rfl
  | cons b l ih =>
    rw [ins]
    split
    · rfl
    · exact List.Perm.trans (List.Perm.cons b ih) (List.Perm.swap a b l)

theorem sortBy_perm {α : Type} (le : α → α → Bool) (l : List α) :
    List.Perm (sortBy le l) l := by
  induction l with
  | nil => rfl
  | cons a l ih =>
    rw [sortBy]
    exact List.Perm.trans (ins_perm le a (sortBy le l)) (List.Perm.cons a ih)

theorem ins_pairwise {α : Type} (le : α → α → Bool)
    (total : ∀ a b, le a b = true ∨ le b a = true)
    (htrans : ∀ a b c, le a b = true → le b c = true → le a c = true)
    (a : α) (l : List α) (hl : l.Pairwise (fun x y => le x y = true)) :
    (ins le a l).Pairwise (fun x y => le x y = true) := by
  induction l with
  | nil => simp [ins]
  | cons b l ih =>
    rw [ins]
    rw [List.pairwise_cons] at hl
    obtain ⟨hb, hl⟩ := hl
    split
    · rename_i hab
      rw [List.pairwise_cons]
      refine ⟨?_, List.pairwise_cons.mpr ⟨hb, hl⟩⟩
      intro x hx
      rcases List.mem_cons.mp hx with rfl | hx
      · exact hab
      · exact htrans a b x hab (hb x hx)
    · rename_i hab
      have hba : le b a = true := (total a b).resolve_left hab
      rw [List.pairwise_cons]
      refine ⟨?_, ih hl⟩
      intro x hx
      have hmem := (ins_perm le a l).mem_iff.mp hx
      rcases List.mem_cons.mp hmem with rfl | hx2
      · exact hba
      · exact hb x hx2

theorem sortBy_pairwise {α : Type} (le : α → α → Bool)
    (total : ∀ a b, le a b = true ∨ le b a = true)
    (htrans : ∀ a b c, le a b = true → le b c = true → le a c = true)
    (l : List α) : (sortBy le l).Pairwise (fun x y => le x y = true) := by
  induction l with
  | nil => exact List.Pairwise.nil
  | cons a l ih => exact ins_pairwise le total htrans a (sortBy le l) ih

theorem foldl_and_eq {α : Type} (l : List α) (g : α → Bool) (b : Bool) :
    l.foldl (fun m p => m && g p) b = (b && l.all g) := by
  induction l generalizing b with
  | nil => rw [List.foldl_nil, List.all_nil, Bool.and_true]
  | cons a l ih =>
    rw [List.foldl_cons, ih, List.all_cons, Bool.and_assoc]

theorem is_match_some_iff (d : Dev) (ps : List (List Char)) :
    is_match d (some ps) = true ↔
      ∀ p ∈ ps, hasSub (lowerL p) (lowerL d.name) = true := by
  rw [is_match, foldl_and_eq, Bool.true_and, List.all_eq_true]

theorem leadsWith_iff (n h : List Char) :
    leadsWith n h = true ↔ ∃ t, n ++ t = h := by
  induction n generalizing h with
  | nil => simp [leadsWith]
  | cons a as ih =>
    cases h with
    | nil =>
      rw [leadsWith]
      simp
    | cons b bs =>
      rw [leadsWith, Bool.and_eq_true, beq_iff_eq, ih]
      constructor
      · rintro ⟨rfl, t, rfl⟩
        exact ⟨t, rfl⟩
      · rintro ⟨t, ht⟩
        rw [List.cons_append] at ht
        injection ht with h1 h2
        exact ⟨h1, t, h2⟩

theorem hasSub_iff (n h : List Char) :
    hasSub n h = true ↔ ∃ s t, s ++ n ++ t = h := by
  induction h with
  | nil =>
    rw [hasSub, leadsWith_iff]
    constructor
    · rintro ⟨t, ht⟩
      exact ⟨[], t, ht⟩
    · rintro ⟨s, t, hst⟩
      have h1 := List.append_eq_nil.mp hst
      have h2 := List.append_eq_nil.mp h1.1
      exact ⟨[], by rw [h2.2]; rfl⟩
  | cons b bs ih =>
    rw [hasSub, Bool.or_eq_true, leadsWith_iff, ih]
    constructor
    · rintro (⟨t, ht⟩ | ⟨s, t, hst⟩)
      · exact ⟨[], t, ht⟩
      · exact ⟨b :: s, t, by rw [← hst]; rfl⟩
    · rintro ⟨s, t, hst⟩
      cases s with
      | nil => left; exact ⟨t, hst⟩
      | cons s0 s2 =>
        right
        rw [List.cons_append, List.cons_append] at hst
        injection hst with h1 h2
        exact ⟨s2, t, h2⟩

theorem mem_matching_devices (devs : List Dev) (ps : Option (List (List Char)))
    (d : Dev) :
    d ∈ matching_devices devs ps ↔ d ∈ devs ∧ is_match d ps = true := by
  rw [matching_devices, (sortBy_perm devLe _).mem_iff, List.mem_filter]

/-! ## Helper lemmas: retry loops -/

theorem connectLoop_all_btle (outcome : Nat → OpenResult) (retries : Nat)
    (hall : ∀ i, outcome i = OpenResult.btleError) :
    ∀ fuel i, fuel ≠ 0 → i + fuel = retries →
      connectLoop outcome retries i fuel =
        (fuel, fuel - 1, ConnectOutcome.raisedBTLE) := by
  intro fuel
  induction fuel with
  | zero => intro i h; exact absurd rfl h
  | succ f ih =>
    intro i _ hi
    simp only [connectLoop, hall i]
    cases f with
    | zero =>
      rw [if_neg (by omega)]
    | succ f2 =>
      rw [if_pos (by omega)]
      rw [ih (i + 1) (by omega) (by omega)]
      rfl

theorem sendLoop_all_btle (write : Nat → WriteResult) (reconnect : Nat → Bool)
    (retries : Nat) (hw : ∀ i, write i = WriteResult.btle) :
    ∀ fuel i, fuel ≠ 0 → i + fuel = retries →
      (sendLoop write reconnect retries i fuel).2 = SendOutcome.raisedBTLE ∧
      (sendLoop write reconnect retries i fuel).1 ≤ fuel - 1 ∧
      ((∀ j, reconnect j = true) →
        (sendLoop write reconnect retries i fuel).1 = fuel - 1) := by
  intro fuel
  induction fuel with
  | zero => intro i h; exact absurd rfl h
  | succ f ih =>
    intro i _ hi
    simp only [sendLoop, hw i]
    cases f with
    | zero =>
      rw [if_neg (by omega)]
      exact ⟨rfl, by omega, fun _ => rfl⟩
    | succ f2 =>
      rw [if_pos (by omega)]
      cases hr : reconnect i with
      | true =>
        rw [if_pos rfl]
        have h := ih (i + 1) (by omega) (by omega)
        refine ⟨h.1, by omega, fun hrec => ?_⟩
        have h3 := h.2.2 hrec
        simp only
        omega
      | false =>
        rw [if_neg (by simp)]
        refine ⟨rfl, by omega, fun hrec => ?_⟩
        rw [hrec i] at hr
        exact absurd hr (by simp)

/-! ## Claims -/

/-- Claim C1 (corrected): the packet length is `W * (H / 8)` (floor), not
`W * ceil(H / 8)`: the Python loop `range(height - 8, -1, -8)` visits only
full 8-row groups, so for `H` not a multiple of 8 the topmost partial group
is dropped.  For every raster of width `W ≥ 1` and height `H ≥ 1`,
`bitmap_to_packet` returns exactly `W * (H / 8)` bytes. -/
theorem bitmap_to_packet_length (W H : Nat) (f : Nat → Nat → Bool)
    (hW : 1 ≤ W) (hH : 1 ≤ H) :
    (bitmap_to_packet W H f).length = W * (H / 8) := by
  simp [bitmap_to_packet, column_bytes, groupOrigins, List.length_flatMap,
    Function.comp_def, List.map_const', List.sum_replicate, Nat.smul_one_eq_cast]

/-- Witness for C1: a 2×12 raster encodes to `2 * (12 / 8) = 2` bytes. -/
theorem bitmap_to_packet_length_witness :
    (bitmap_to_packet 2 12 allDark).length = 2 * (12 / 8) :=
  bitmap_to_packet_length 2 12 allDark (by decide) (by decide)

/-- Counterexample to C1 as stated: a 1×1 raster encodes to 0 bytes, not
`1 * ceil(1 / 8) = 1` byte. -/
theorem bitmap_to_packet_ceil_cex :
    (bitmap_to_packet 1 1 allDark).length ≠ 1 * ((1 + 7) / 8) := by
  decide

/-- Claim C2 (corrected): for a raster with a single dark pixel at row `r`,
column `c` (`c < W`, `r < H`), *provided the row lies inside one of the
bottom-up byte groups*, i.e. `H % 8 ≤ r`, the output has exactly one set bit
in exactly one byte: the `k`-th byte of column `c`'s run (`k < H / 8`), whose
group origin `g = H - 8 * (k + 1)` satisfies `g ≤ r < g + 8`, and the byte is
`2 ^ (r - g)` (bit `r - g` set).  All other bytes are `0`.  Rows
`r < H % 8` (in particular `r = 0` whenever `8 ∤ H`) are dropped entirely,
which is the correction to the original claim. -/
theorem single_pixel_packet (W H r c : Nat) (hc : c < W) (hr : r < H)
    (hmod : H % 8 ≤ r) :
    ∃ k g, k < H / 8 ∧ g = H - 8 * (k + 1) ∧ g ≤ r ∧ r < g + 8 ∧
      bitmap_to_packet W H (singlePixel r c) =
        zerosExcept (W * (H / 8)) (c * (H / 8) + k) (2 ^ (r - g)) := by
  refine ⟨(H - 1 - r) / 8, H - 8 * ((H - 1 - r) / 8 + 1), by omega, rfl, by omega,
    by omega, ?_⟩
  set m := H / 8 with hm
  set k := (H - 1 - r) / 8 with hk
  set g := H - 8 * (k + 1) with hg
  have hkm : k < m := by omega
  rw [bitmap_to_packet, zerosExcept]
  apply range_flatMap_eq_map
  intro x hx
  rw [column_bytes, groupOrigins, List.map_map]
  apply List.map_congr_left
  intro j hj
  rw [List.mem_range] at hj
  simp only [Function.comp_apply]
  rw [groupByte_single_pixel]
  by_cases hcase : x = c ∧ j = k
  · obtain ⟨rfl, rfl⟩ := hcase
    rw [if_pos ⟨rfl, by omega, by omega, hr⟩, if_pos rfl]
  · rw [if_neg, if_neg]
    · intro heq
      exact hcase (mul_add_cancel_parts m x c j k hj hkm heq)
    · rintro ⟨rfl, hge, hlt, _⟩
      exact hcase ⟨rfl, by omega⟩

/-- Witness for C2: a 2×16 raster with its dark pixel at the boundary row
`r = 0` of column 1 (here `16 % 8 = 0 ≤ 0`). -/
theorem single_pixel_packet_witness :
    ∃ k g, k < 16 / 8 ∧ g = 16 - 8 * (k + 1) ∧ g ≤ 0 ∧ 0 < g + 8 ∧
      bitmap_to_packet 2 16 (singlePixel 0 1) =
        zerosExcept (2 * (16 / 8)) (1 * (16 / 8) + k) (2 ^ (0 - g)) :=
  single_pixel_packet 2 16 0 1 (by decide) (by decide) (by decide)

/-- Counterexample to C2 as stated: in a 1×9 raster the single dark pixel at
the boundary row `r = 0`, column `c = 0` produces the output `[0]` — no byte
with a set bit at all, because row 0 lies above the only byte group
(origin 1, rows 1–8). -/
theorem single_pixel_dropped_row_cex :
    bitmap_to_packet 1 9 pixAt00 = [0] := by
  decide

/-- Claim C3 (corrected): when every chunk write raises the link-lost error,
`print()` does not attempt exactly one reconnect-and-resend cycle: it
attempts up to `retries - 1` inline cycles (4 with the default
`retries = 5`), and raises `PristarP15LabelerError` wrapping the cause once
the final attempt also fails (or an inline reconnect itself raises); when
every inline `connect()` succeeds, exactly `retries - 1` cycles happen. -/
theorem print_job_all_btle (write : Nat → WriteResult) (reconnect : Nat → Bool)
    (retries : Nat) (h1 : 1 ≤ retries) (hw : ∀ i, write i = WriteResult.btle) :
    (print_job write reconnect retries).2 = PrintOutcome.raisedError ∧
    (print_job write reconnect retries).1 ≤ retries - 1 ∧
    ((∀ j, reconnect j = true) →
      (print_job write reconnect retries).1 = retries - 1) := by
  have h := sendLoop_all_btle write reconnect retries hw retries 0 (by omega) (by omega)
  rcases hse : sendLoop write reconnect retries 0 retries with ⟨n, o⟩
  rw [hse] at h
  obtain ⟨ho, hn, hcond⟩ := h
  simp only at ho hn hcond
  subst ho
  rw [print_job, send_data, hse]
  exact ⟨rfl, hn, fun hrec => hcond hrec⟩

/-- Witness for C3: with the default `retries = 5`, always-failing writes and
always-succeeding reconnects, `print` raises after exactly 4 reconnect
cycles. -/
theorem print_job_all_btle_witness :
    (print_job alwaysBtleWrite alwaysReconnectOk 5).2 = PrintOutcome.raisedError ∧
    (print_job alwaysBtleWrite alwaysReconnectOk 5).1 = 5 - 1 :=
  ⟨(print_job_all_btle alwaysBtleWrite alwaysReconnectOk 5 (by omega)
      (fun _ => rfl)).1,
    (print_job_all_btle alwaysBtleWrite alwaysReconnectOk 5 (by omega)
      (fun _ => rfl)).2.2 (fun _ => rfl)⟩

/-- Counterexample to C3 as stated: with the default `retries = 5`, a link
whose every write raises the link-lost error and whose reconnects all
succeed sees 4 reconnect-and-resend cycles before `print` raises — not
exactly one. -/
theorem print_reconnect_cycles_cex :
    print_job alwaysBtleWrite alwaysReconnectOk 5 = (4, PrintOutcome.raisedError) := by
  rfl

/-- Claim C4 (corrected): the stated behaviour holds only for
`BTLEDisconnectError` failures: then `connect(retries, delay)` makes exactly
`retries` open attempts, sleeps `retries - 1` times (once between
consecutive attempts), and re-raises the last error.  For any other
exception kind the loop sleeps after *every* attempt (including the last)
and falls through, returning `None` and swallowing the error, so the
original claim's "for every kind of failure" is false. -/
theorem connect_all_btle (outcome : Nat → OpenResult) (retries : Nat)
    (h1 : 1 ≤ retries) (hall : ∀ i, outcome i = OpenResult.btleError) :
    connectRun outcome retries = (retries, retries - 1, ConnectOutcome.raisedBTLE) :=
  connectLoop_all_btle outcome retries hall retries 0 (by omega) (by omega)

/-- Witness for C4: three always-BTLE-failing attempts give 3 attempts,
2 sleeps, and a re-raised error. -/
theorem connect_all_btle_witness :
    connectRun allBtleOpen 3 = (3, 3 - 1, ConnectOutcome.raisedBTLE) :=
  connect_all_btle allBtleOpen 3 (by omega) (fun _ => rfl)

/-- Counterexample to C4 as stated: with `retries = 1` and an open attempt
that fails with a non-BTLE exception, `connect` returns normally (the error
is swallowed, not raised) and sleeps once even though there is no next
attempt. -/
theorem connect_swallows_other_cex :
    connectRun allOtherOpen 1 = (1, 1, ConnectOutcome.fellThrough) := by
  rfl

/-- Claim C5 (corrected): `scan()` never builds an empty fresh set, because
the hardcoded Pristar P15 entry is always inserted; so a scan that
enumerates 0 devices does not clear-and-raise — it returns normally and the
device set becomes exactly the single Pristar entry. -/
theorem scan_zero_enumerable (prev : List Dev) :
    ∃ changed, scan prev [] = Except.ok (scanDevs prev [], changed) ∧
      (keysOf (scanDevs prev [])).toFinset = {pristarDev.hash} := by
  refine ⟨_, scan_ok prev [], ?_⟩
  rw [keysOf_scanDevs]
  decide

/-- Counterexample to C5 as stated: from 2 known devices and 0 enumerable
devices, `scan` does not raise `DeviceManagerNoDevices`; it returns
normally with the set holding just the hardcoded Pristar entry. -/
theorem scan_two_to_zero_cex :
    scan [devA, devB] [] = Except.ok ([pristarDev], true) := by
  rfl

/-- Claim C6 (confirmed): every `scan()` call, whatever the USB enumeration
yields (including a total enumeration failure, `usb = []`), inserts the
hardcoded Pristar P15 hash `"03:0D:7A:D6:5E:B1"` into the fresh set; hence
the fresh set is never empty, `scan` always returns normally (never raises
the no-devices error), and afterwards the device set contains that hash. -/
theorem scan_always_pristar (prev usb : List Dev) :
    pristarDev.hash ∈ keysOf (buildCur usb) ∧
    buildCur usb ≠ [] ∧
    (∃ devs changed, scan prev usb = Except.ok (devs, changed) ∧
      pristarDev.hash ∈ keysOf devs) := by
  refine ⟨buildCur_has_pristar usb, buildCur_ne_nil usb, scanDevs prev usb, _,
    scan_ok prev usb, ?_⟩
  rw [← List.mem_toFinset, keysOf_scanDevs, List.mem_toFinset]
  exact buildCur_has_pristar usb

/-- Witness for C6: the property at the concrete empty state. -/
theorem scan_always_pristar_witness :
    pristarDev.hash ∈ keysOf (buildCur []) ∧
    buildCur [] ≠ [] ∧
    (∃ devs changed, scan [] [] = Except.ok (devs, changed) ∧
      pristarDev.hash ∈ keysOf devs) :=
  scan_always_pristar [] []

/-- Claim C7 (confirmed): `find_and_select_device(patterns)` selects exactly
the known devices whose name contains every pattern as a case-insensitive
substring (`none` matches every device); with at least one match it returns
a matching device minimal in hash order, and with none it raises the
no-matching-device error.  Substring containment is spelled out as
`∃ s t, s ++ lowerL p ++ t = lowerL d.name`. -/
theorem find_and_select_spec (devs : List Dev) (ps : Option (List (List Char))) :
    (∀ d, d ∈ matching_devices devs ps ↔ d ∈ devs ∧ is_match d ps = true)
    ∧ ((∀ d ∈ devs, is_match d ps = false) →
        find_and_select_device devs ps = Except.error "No matching devices found")
    ∧ (∀ d0 ∈ devs, is_match d0 ps = true →
        ∃ d, find_and_select_device devs ps = Except.ok d ∧ d ∈ devs ∧
          is_match d ps = true ∧
          ∀ d2 ∈ devs, is_match d2 ps = true → lexLe d.hash d2.hash = true)
    ∧ (∀ d, is_match d none = true)
    ∧ (∀ d l, is_match d (some l) = true ↔
        ∀ p ∈ l, ∃ s t, s ++ lowerL p ++ t = lowerL d.name) := by
  refine ⟨mem_matching_devices devs ps, ?_, ?_, fun d => rfl, ?_⟩
  · intro h
    rw [find_and_select_device]
    cases hm : matching_devices devs ps with
    | nil => rfl
    | cons d rest =>
      exfalso
      have hd : d ∈ matching_devices devs ps := by
        rw [hm]; exact List.mem_cons_self d rest
      rw [mem_matching_devices] at hd
      rw [h d hd.1] at hd
      exact absurd hd.2 (by simp)
  · intro d0 hd0 hmatch
    have hmem : d0 ∈ matching_devices devs ps :=
      (mem_matching_devices devs ps d0).mpr ⟨hd0, hmatch⟩
    cases hm : matching_devices devs ps with
    | nil => rw [hm] at hmem; exact absurd hmem (List.not_mem_nil d0)
    | cons d rest =>
      have hdmem : d ∈ matching_devices devs ps := by
        rw [hm]; exact List.mem_cons_self d rest
      rw [mem_matching_devices] at hdmem
      refine ⟨d, ?_, hdmem.1, hdmem.2, ?_⟩
      · rw [find_and_select_device, hm]
      · intro d2 hd2 hm2
        have hmem2 : d2 ∈ matching_devices devs ps :=
          (mem_matching_devices devs ps d2).mpr ⟨hd2, hm2⟩
        rw [hm] at hmem2
        rcases List.mem_cons.mp hmem2 with rfl | hrest
        · exact lexLe_refl d2.hash
        · have hp := sortBy_pairwise devLe devLe_total devLe_trans
            (devs.filter (fun d => is_match d ps))
          rw [show sortBy devLe (devs.filter (fun d => is_match d ps)) =
            matching_devices devs ps from rfl, hm, List.pairwise_cons] at hp
          exact hp.1 d2 hrest
  · intro d l
    rw [is_match_some_iff]
    exact forall_congr' (fun p => forall_congr' (fun _ => hasSub_iff _ _))

/-- Witness for C7: with "Pristar P15" and "Other" known,
`find_and_select_device ["zzz"]` raises and `find_and_select_device ["p15"]`
returns a matching device. -/
theorem find_and_select_spec_witness :
    find_and_select_device [pristarDev, otherDev] (some ["zzz".data]) =
      Except.error "No matching devices found" ∧
    (∃ d, find_and_select_device [pristarDev, otherDev] (some ["p15".data]) =
      Except.ok d ∧ d ∈ [pristarDev, otherDev] ∧
      is_match d (some ["p15".data]) = true) := by
  constructor
  · exact (find_and_select_spec [pristarDev, otherDev] (some ["zzz".data])).2.1
      (by decide)
  · obtain ⟨d, h1, h2, h3, _⟩ :=
      (find_and_select_spec [pristarDev, otherDev] (some ["p15".data])).2.2.1
        pristarDev (by decide) (by decide)
    exact ⟨d, h1, h2, h3⟩

/-- Claim C8 (confirmed): assigning an unsupported tape size raises the
invalid-configuration error (`ValueError` in the source) and leaves the
stored tape size unchanged — the getter still returns the previous value —
while assigning a supported value succeeds; the setter is a pure local
state update and never touches the physical device. -/
theorem tape_size_setter_spec (s : P15Config) (v : Int) :
    (v ∉ SUPPORTED_TAPE_SIZES_MM →
      set_tape_size_mm s v = Except.error "Unsupported tape size" ∧
      config_after_set s v = s ∧
      (config_after_set s v).tape_size_mm = s.tape_size_mm) ∧
    (v ∈ SUPPORTED_TAPE_SIZES_MM →
      set_tape_size_mm s v = Except.ok { s with tape_size_mm := v }) := by
  constructor
  · intro h
    refine ⟨?_, ?_, ?_⟩ <;> simp [set_tape_size_mm, config_after_set, h]
  · intro h
    simp [set_tape_size_mm, h]

/-- Witness for C8: 13 mm is rejected and leaves 12 mm configured; 12 mm is
accepted. -/
theorem tape_size_setter_spec_witness :
    set_tape_size_mm ⟨12⟩ 13 = Except.error "Unsupported tape size" ∧
    config_after_set ⟨12⟩ 13 = ⟨12⟩ ∧
    set_tape_size_mm ⟨12⟩ 12 = Except.ok ⟨12⟩ :=
  ⟨((tape_size_setter_spec ⟨12⟩ 13).1 (by decide)).1,
    ((tape_size_setter_spec ⟨12⟩ 13).1 (by decide)).2.1,
    (tape_size_setter_spec ⟨12⟩ 12).2 (by decide)⟩

/-- Claim C9 (confirmed): from any prior manager state, a second `scan()`
with identical enumeration results returns `changed = false` and leaves the
key set of the device dict equal to what the first scan produced. -/
theorem scan_twice (prev usb devs1 : List Dev) (c1 : Bool)
    (h : scan prev usb = Except.ok (devs1, c1)) :
    scan devs1 usb = Except.ok (scanDevs devs1 usb, false) ∧
      (keysOf (scanDevs devs1 usb)).toFinset = (keysOf devs1).toFinset := by
  rw [scan_ok] at h
  have hd : devs1 = scanDevs prev usb := by
    injection h with h1
    exact (congrArg Prod.fst h1).symm
  subst hd
  have hkeys : (keysOf (scanDevs prev usb)).toFinset =
      (keysOf (buildCur usb)).toFinset :=
    keysOf_scanDevs prev usb
  constructor
  · rw [scan_ok]
    have he : keySetEq (keysOf (scanDevs prev usb)) (keysOf (buildCur usb)) = true :=
      (keySetEq_iff _ _).mpr hkeys
    rw [he]
    rfl
  · rw [keysOf_scanDevs, hkeys]

/-- Witness for C9: after `scan [] []` produced `[pristarDev]`, a second scan
with the same (empty) enumeration reports no change. -/
theorem scan_twice_witness :
    scan [pristarDev] [] = Except.ok (scanDevs [pristarDev] [], false) ∧
      (keysOf (scanDevs [pristarDev] [])).toFinset =
        (keysOf [pristarDev]).toFinset :=
  scan_twice [] [] [pristarDev] true (by rfl)

/-- Claim C10 (corrected): the encoding has no error condition at all — it
never rejects any raster.  It is a pure, deterministic, side-effect-free
function of the in-range pixels: two rasters of the same dimensions that
agree on every pixel with `x < W` and `y < H` encode identically. -/
theorem bitmap_to_packet_ext (W H : Nat) (f g : Nat → Nat → Bool)
    (h : ∀ x y, x < W → y < H → f x y = g x y) :
    bitmap_to_packet W H f = bitmap_to_packet W H g := by
  rw [bitmap_to_packet, bitmap_to_packet]
  apply flatMap_congr_left
  intro x hx
  rw [List.mem_range] at hx
  rw [column_bytes, column_bytes]
  apply List.map_congr_left
  intro o _
  exact groupByte_congr f g H x o (fun y hy => h x y hx hy)

/-- Witness for C10: on a 1×8 raster, the all-dark pixel function and the
range-masked dark pixel function agree in range and encode identically. -/
theorem bitmap_to_packet_ext_witness :
    bitmap_to_packet 1 8 allDark = bitmap_to_packet 1 8 inRangeDark :=
  bitmap_to_packet_ext 1 8 allDark inRangeDark
    (fun x y hx hy => by simp [allDark, inRangeDark, hx, hy])

/-- Counterexample to C10 as stated: a zero-width raster is not rejected with
an invalid-input error; `bitmap_to_packet` returns the empty byte sequence
normally (the source contains no input validation at all). -/
theorem encode_zero_width_cex :
    bitmap_to_packet 0 8 allDark = [] := by
  rfl
